import Mathlib

/-!
Verification of the petgraph maximal-clique core: the Bron–Kerbosch
reference enumerator (`src/tests/maximal_cliques.rs`) and the filtered
graph view (`src/src/visit/filter.rs`).

Graphs are embedded concretely: node identifiers are natural numbers, a
graph is its `node_identifiers` list together with its directed edge
list (`neighbors v` iterates the targets of edges leaving `v`, exactly
the successor iteration of a directed petgraph `Graph`; an undirected
graph is represented by listing each edge in both directions, which is
what its neighbor iteration and adjacency matrix look like through the
capability interface).
-/

namespace Petgraph

/-- A concrete capability-conforming graph: the list of node identifiers
(in iteration order) and the list of directed edges. -/
structure Graph where
  nodes : List Nat
  edges : List (Nat × Nat)
deriving DecidableEq

/-- `neighbors g v`: the targets of the edges leaving `v`, in edge order —
the successor iteration of a directed petgraph graph. -/
def Graph.neighbors (g : Graph) (v : Nat) : List Nat :=
  (g.edges.filter (fun e => e.fst == v)).map Prod.snd

/-- The adjacency-matrix oracle of §4.4, built exactly as the source builds
it: for every `u` from `node_identifiers()` and every `v` in `neighbors(u)`,
the bit `(u, v)` is set.  No symmetric closure is applied. -/
def Graph.adjMatrix (g : Graph) : Finset (Nat × Nat) :=
  (g.nodes.flatMap (fun u => (g.neighbors u).map (fun v => (u, v)))).toFinset

/-- `is_adjacent(adj_mat, a, b)`: the O(1) bit test of the oracle. -/
def Graph.isAdjacent (_g : Graph) (m : Finset (Nat × Nat)) (a b : Nat) : Bool :=
  decide ((a, b) ∈ m)

/-- Clique-adjacency (§4.5): `u`, `v` are clique-adjacent iff both
`is_adjacent(u, v)` and `is_adjacent(v, u)` hold in the oracle. -/
def cliqueAdjacent (g : Graph) (u v : Nat) : Prop :=
  (u, v) ∈ g.adjMatrix ∧ (v, u) ∈ g.adjMatrix

instance (g : Graph) (u v : Nat) : Decidable (cliqueAdjacent g u v) := by
  unfold cliqueAdjacent; infer_instance

/-- The neighbor set `N(v)` the engine computes for a candidate `v`
(lines 42–48 of the source): every `u` yielded by `neighbors(v)` that
also passes the reverse oracle test `is_adjacent(u, v)`. -/
def cliqueNeighbors (g : Graph) (v : Nat) : Finset Nat :=
  ((g.neighbors v).filter (fun u => g.isAdjacent g.adjMatrix u v)).toFinset

/-- The Bron–Kerbosch recursion of `bron_kerbosch_ref`, with an explicit
fuel bound on the recursion depth (`fuel ≥ |P|` makes the bound
irrelevant, which is proved below as the termination theorem).

The source's `while let Some(v) = todo.pop()` loop over an unordered
snapshot of `P` is rendered as: take a candidate `v` (the minimum — the
iteration order is unconstrained), recurse on
`(R ∪ {v}, (P \ {v}) ∩ N(v), X ∩ N(v))`, then run the remaining
iterations of the same loop, which are exactly the recursion on
`(R, P \ {v}, X ∪ {v})` — `v` moved from `P` to `X` — whose emission
test can never fire because `X ∪ {v}` is nonempty. -/
def bronKerboschAux (g : Graph) (fuel : Nat) (r p x : Finset Nat) :
    List (Finset Nat) :=
  if hp : p = ∅ then
    if x = ∅ then [r] else []
  else
    match fuel with
    | 0 => []
    | f + 1 =>
      let v := p.min' (Finset.nonempty_iff_ne_empty.mpr hp)
      let nv := cliqueNeighbors g v
      bronKerboschAux g f (insert v r) ((p.erase v) ∩ nv) (x ∩ nv)
        ++ bronKerboschAux g f r (p.erase v) (insert v x)

/-- `bron_kerbosch_ref g adj_mat r p x`: the recursion with enough fuel. -/
def bronKerbosch (g : Graph) (r p x : Finset Nat) : List (Finset Nat) :=
  bronKerboschAux g p.card r p x

/-- `maximal_cliques_ref g`: build the oracle, collect all node
identifiers into `P`, and run Bron–Kerbosch from `(∅, P, ∅)`. -/
def maximalCliquesRef (g : Graph) : List (Finset Nat) :=
  bronKerbosch g ∅ g.nodes.toFinset ∅

/-! ### Characterizations of neighbors, the oracle, and `N(v)` -/

theorem mem_neighbors {g : Graph} {v u : Nat} :
    u ∈ g.neighbors v ↔ (v, u) ∈ g.edges := by
  simp only [Graph.neighbors, List.mem_map, List.mem_filter, beq_iff_eq]
  constructor
  · rintro ⟨⟨a, b⟩, ⟨he, hf⟩, hs⟩
    simp only at hf hs
    subst hf; subst hs; exact he
  · intro h
    exact ⟨(v, u), ⟨h, rfl⟩, rfl⟩

theorem mem_adjMatrix {g : Graph} {a b : Nat} :
    (a, b) ∈ g.adjMatrix ↔ a ∈ g.nodes ∧ (a, b) ∈ g.edges := by
  simp only [Graph.adjMatrix, List.mem_toFinset, List.mem_flatMap, List.mem_map]
  constructor
  · rintro ⟨u, hu, w, hw, huw⟩
    injection huw with h1 h2
    subst h1; subst h2
    exact ⟨hu, mem_neighbors.mp hw⟩
  · rintro ⟨ha, hab⟩
    exact ⟨a, ha, b, mem_neighbors.mpr hab, rfl⟩

theorem mem_cliqueNeighbors {g : Graph} {v u : Nat} :
    u ∈ cliqueNeighbors g v ↔
      (v, u) ∈ g.edges ∧ u ∈ g.nodes ∧ (u, v) ∈ g.edges := by
  simp only [cliqueNeighbors, List.mem_toFinset, List.mem_filter,
    Graph.isAdjacent, decide_eq_true_eq, mem_neighbors, mem_adjMatrix]

theorem cliqueAdjacent_iff {g : Graph} {u v : Nat} :
    cliqueAdjacent g u v ↔
      (u ∈ g.nodes ∧ (u, v) ∈ g.edges) ∧ (v ∈ g.nodes ∧ (v, u) ∈ g.edges) := by
  simp only [cliqueAdjacent, mem_adjMatrix]

theorem cliqueAdjacent_symm {g : Graph} {u v : Nat}
    (h : cliqueAdjacent g u v) : cliqueAdjacent g v u :=
  ⟨h.2, h.1⟩

theorem mem_cliqueNeighbors_of_adj {g : Graph} {v w : Nat}
    (h : cliqueAdjacent g v w) : w ∈ cliqueNeighbors g v := by
  rw [cliqueAdjacent_iff] at h
  exact mem_cliqueNeighbors.mpr ⟨h.1.2, h.2.1, h.2.2⟩

theorem cliqueAdjacent_of_mem_cliqueNeighbors {g : Graph} {v w : Nat}
    (hv : v ∈ g.nodes) (h : w ∈ cliqueNeighbors g v) : cliqueAdjacent g v w := by
  rw [mem_cliqueNeighbors] at h
  exact cliqueAdjacent_iff.mpr ⟨⟨hv, h.1⟩, h.2.1, h.2.2⟩

/-! ### Unfolding equations of the engine -/

theorem bkAux_p_empty (g : Graph) (fuel : Nat) (r x : Finset Nat) :
    bronKerboschAux g fuel r ∅ x = if x = ∅ then [r] else [] := by
  rw [bronKerboschAux]
  simp

theorem bkAux_zero (g : Graph) (r p x : Finset Nat) (hp : p ≠ ∅) :
    bronKerboschAux g 0 r p x = [] := by
  rw [bronKerboschAux, dif_neg hp]

theorem bkAux_step (g : Graph) (f : Nat) (r p x : Finset Nat)
    (hp : p.Nonempty) :
    bronKerboschAux g (f + 1) r p x =
      bronKerboschAux g f (insert (p.min' hp) r)
          ((p.erase (p.min' hp)) ∩ cliqueNeighbors g (p.min' hp))
          (x ∩ cliqueNeighbors g (p.min' hp))
        ++ bronKerboschAux g f r (p.erase (p.min' hp))
            (insert (p.min' hp) x) := by
  rw [bronKerboschAux, dif_neg (Finset.nonempty_iff_ne_empty.mp hp)]

theorem bkAux_mem_p_empty {g : Graph} {fuel : Nat} {r x c : Finset Nat}
    (hc : c ∈ bronKerboschAux g fuel r ∅ x) : c = r ∧ x = ∅ := by
  rw [bkAux_p_empty] at hc
  by_cases hx : x = ∅
  · rw [if_pos hx] at hc
    exact ⟨List.mem_singleton.mp hc, hx⟩
  · rw [if_neg hx] at hc
    exact absurd hc (List.not_mem_nil c)

/-! ### Structural invariants of the recursion -/

/-- Every clique produced from `(R, P, X)` contains `R` and is contained
in `R ∪ P`: members only ever enter `R` by being drawn from `P`. -/
theorem bkAux_mem_subset (g : Graph) :
    ∀ (fuel : Nat) (r p x c : Finset Nat),
      c ∈ bronKerboschAux g fuel r p x → r ⊆ c ∧ c ⊆ r ∪ p := by
  intro fuel
  induction fuel with
  | zero =>
    intro r p x c hc
    by_cases hp : p = ∅
    · subst hp
      obtain ⟨rfl, -⟩ := bkAux_mem_p_empty hc
      exact ⟨Finset.Subset.refl c, Finset.subset_union_left⟩
    · rw [bkAux_zero g r p x hp] at hc
      exact absurd hc (List.not_mem_nil c)
  | succ f ih =>
    intro r p x c hc
    by_cases hp : p = ∅
    · subst hp
      obtain ⟨rfl, -⟩ := bkAux_mem_p_empty hc
      exact ⟨Finset.Subset.refl c, Finset.subset_union_left⟩
    · have hne : p.Nonempty := Finset.nonempty_iff_ne_empty.mpr hp
      rw [bkAux_step g f r p x hne] at hc
      set v := p.min' hne with hv
      rcases List.mem_append.mp hc with h1 | h2
      · obtain ⟨hr, hsub⟩ := ih _ _ _ _ h1
        refine ⟨fun a ha => hr (Finset.mem_insert_of_mem ha), fun a ha => ?_⟩
        rcases Finset.mem_union.mp (hsub ha) with h | h
        · rcases Finset.mem_insert.mp h with rfl | h
          · exact Finset.mem_union_right _ (p.min'_mem hne)
          · exact Finset.mem_union_left _ h
        · exact Finset.mem_union_right _
            (Finset.mem_of_mem_erase (Finset.mem_of_mem_inter_left h))
      · obtain ⟨hr, hsub⟩ := ih _ _ _ _ h2
        refine ⟨hr, fun a ha => ?_⟩
        rcases Finset.mem_union.mp (hsub ha) with h | h
        · exact Finset.mem_union_left _ h
        · exact Finset.mem_union_right _ (Finset.mem_of_mem_erase h)

/-- Fuel congruence: any fuel of at least `|P|` produces the same result —
the recursion depth is bounded by the size of the candidate set. -/
theorem bkAux_fuel_eq (g : Graph) :
    ∀ (f1 f2 : Nat) (r p x : Finset Nat),
      p.card ≤ f1 → p.card ≤ f2 →
      bronKerboschAux g f1 r p x = bronKerboschAux g f2 r p x := by
  intro f1
  induction f1 with
  | zero =>
    intro f2 r p x h1 h2
    have hp : p = ∅ := Finset.card_eq_zero.mp (Nat.le_zero.mp h1)
    subst hp
    rw [bkAux_p_empty, bkAux_p_empty]
  | succ a ih =>
    intro f2 r p x h1 h2
    by_cases hp : p = ∅
    · subst hp
      rw [bkAux_p_empty, bkAux_p_empty]
    · have hne : p.Nonempty := Finset.nonempty_iff_ne_empty.mpr hp
      have hpos : 0 < p.card := Finset.card_pos.mpr hne
      match f2 with
      | 0 => omega
      | b + 1 =>
        rw [bkAux_step g a r p x hne, bkAux_step g b r p x hne]
        have hcard : (p.erase (p.min' hne)).card = p.card - 1 :=
          Finset.card_erase_of_mem (p.min'_mem hne)
        have hinter :
            ((p.erase (p.min' hne)) ∩ cliqueNeighbors g (p.min' hne)).card ≤
              p.card - 1 :=
          hcard ▸ Finset.card_le_card Finset.inter_subset_left
        congr 1
        · exact ih b _ _ _ (by omega) (by omega)
        · exact ih b _ _ _ (by omega) (by omega)

/-- Adjacency invariant: if `R` is pairwise clique-adjacent, every member
of `R` is clique-adjacent to every candidate, and all candidates are
nodes, then every emitted clique is pairwise clique-adjacent. -/
theorem bkAux_adj (g : Graph) :
    ∀ (fuel : Nat) (r p x c : Finset Nat),
      (∀ a ∈ r, ∀ b ∈ r, a ≠ b → cliqueAdjacent g a b) →
      (∀ a ∈ r, ∀ b ∈ p, cliqueAdjacent g a b) →
      (∀ b ∈ p, b ∈ g.nodes) →
      c ∈ bronKerboschAux g fuel r p x →
      ∀ u ∈ c, ∀ w ∈ c, u ≠ w → cliqueAdjacent g u w := by
  intro fuel
  induction fuel with
  | zero =>
    intro r p x c hr _ _ hc
    by_cases hp : p = ∅
    · subst hp
      obtain ⟨rfl, -⟩ := bkAux_mem_p_empty hc
      exact hr
    · rw [bkAux_zero g r p x hp] at hc
      exact absurd hc (List.not_mem_nil c)
  | succ f ih =>
    intro r p x c hr hrp hpn hc
    by_cases hp : p = ∅
    · subst hp
      obtain ⟨rfl, -⟩ := bkAux_mem_p_empty hc
      exact hr
    · have hne : p.Nonempty := Finset.nonempty_iff_ne_empty.mpr hp
      rw [bkAux_step g f r p x hne] at hc
      set v := p.min' hne with hv
      have hvp : v ∈ p := p.min'_mem hne
      have hvn : v ∈ g.nodes := hpn v hvp
      rcases List.mem_append.mp hc with h1 | h2
      · refine ih _ _ _ _ ?_ ?_ ?_ h1
        · intro a ha b hb hab
          rcases Finset.mem_insert.mp ha with rfl | ha'
          · rcases Finset.mem_insert.mp hb with rfl | hb'
            · exact absurd rfl hab
            · exact cliqueAdjacent_symm (hrp b hb' v hvp)
          · rcases Finset.mem_insert.mp hb with rfl | hb'
            · exact hrp a ha' v hvp
            · exact hr a ha' b hb' hab
        · intro a ha b hb
          have hbn : b ∈ cliqueNeighbors g v :=
            Finset.mem_of_mem_inter_right hb
          rcases Finset.mem_insert.mp ha with rfl | ha'
          · exact cliqueAdjacent_of_mem_cliqueNeighbors hvn hbn
          · exact hrp a ha' b
              (Finset.mem_of_mem_erase (Finset.mem_of_mem_inter_left hb))
        · intro b hb
          exact hpn b
            (Finset.mem_of_mem_erase (Finset.mem_of_mem_inter_left hb))
      · refine ih _ _ _ _ hr ?_ ?_ h2
        · intro a ha b hb
          exact hrp a ha b (Finset.mem_of_mem_erase hb)
        · intro b hb
          exact hpn b (Finset.mem_of_mem_erase hb)

/-- Maximality invariant: if every node clique-adjacent to all of `R` but
outside `R` lies in `P ∪ X`, then no emitted clique can be extended by a
node clique-adjacent to all its members. -/
theorem bkAux_maximal (g : Graph) :
    ∀ (fuel : Nat) (r p x c : Finset Nat),
      (∀ w, w ∈ g.nodes → w ∉ r →
        (∀ a ∈ r, cliqueAdjacent g a w) → w ∈ p ∪ x) →
      c ∈ bronKerboschAux g fuel r p x →
      ∀ w, w ∈ g.nodes → w ∉ c → (∀ a ∈ c, cliqueAdjacent g a w) → False := by
  intro fuel
  induction fuel with
  | zero =>
    intro r p x c hinv hc w hw hwc hadj
    by_cases hp : p = ∅
    · subst hp
      obtain ⟨rfl, rfl⟩ := bkAux_mem_p_empty hc
      have := hinv w hw hwc hadj
      simp at this
    · rw [bkAux_zero g r p x hp] at hc
      exact absurd hc (List.not_mem_nil c)
  | succ f ih =>
    intro r p x c hinv hc w hw hwc hadj
    by_cases hp : p = ∅
    · subst hp
      obtain ⟨rfl, rfl⟩ := bkAux_mem_p_empty hc
      have := hinv w hw hwc hadj
      simp at this
    · have hne : p.Nonempty := Finset.nonempty_iff_ne_empty.mpr hp
      rw [bkAux_step g f r p x hne] at hc
      set v := p.min' hne with hv
      rcases List.mem_append.mp hc with h1 | h2
      · refine ih _ _ _ _ ?_ h1 w hw hwc hadj
        intro w' hw' hw'r hw'adj
        have hw'ne : w' ≠ v := fun h => hw'r (h ▸ Finset.mem_insert_self v r)
        have hw'nr : w' ∉ r := fun h => hw'r (Finset.mem_insert_of_mem h)
        have hw'px : w' ∈ p ∪ x :=
          hinv w' hw' hw'nr (fun a ha => hw'adj a (Finset.mem_insert_of_mem ha))
        have hw'nv : w' ∈ cliqueNeighbors g v :=
          mem_cliqueNeighbors_of_adj (hw'adj v (Finset.mem_insert_self v r))
        rcases Finset.mem_union.mp hw'px with h | h
        · exact Finset.mem_union_left _
            (Finset.mem_inter.mpr ⟨Finset.mem_erase.mpr ⟨hw'ne, h⟩, hw'nv⟩)
        · exact Finset.mem_union_right _ (Finset.mem_inter.mpr ⟨h, hw'nv⟩)
      · refine ih _ _ _ _ ?_ h2 w hw hwc hadj
        intro w' hw' hw'r hw'adj
        have hw'px : w' ∈ p ∪ x := hinv w' hw' hw'r hw'adj
        by_cases hw'v : w' = v
        · exact Finset.mem_union_right _ (hw'v ▸ Finset.mem_insert_self v x)
        · rcases Finset.mem_union.mp hw'px with h | h
          · exact Finset.mem_union_left _ (Finset.mem_erase.mpr ⟨hw'v, h⟩)
          · exact Finset.mem_union_right _ (Finset.mem_insert_of_mem h)

/-- Uniqueness invariant: with `R` disjoint from `P`, no clique is emitted
twice — the branch on a candidate `v` only emits cliques containing `v`,
while the continuation with `v` moved to `X` only emits cliques
avoiding `v`. -/
theorem bkAux_pairwise_ne (g : Graph) :
    ∀ (fuel : Nat) (r p x : Finset Nat), Disjoint r p →
      (bronKerboschAux g fuel r p x).Pairwise (· ≠ ·) := by
  intro fuel
  induction fuel with
  | zero =>
    intro r p x _
    by_cases hp : p = ∅
    · subst hp
      rw [bkAux_p_empty]
      by_cases hx : x = ∅
      · rw [if_pos hx]
        exact List.pairwise_singleton _ _
      · rw [if_neg hx]
        exact List.Pairwise.nil
    · rw [bkAux_zero g r p x hp]
      exact List.Pairwise.nil
  | succ f ih =>
    intro r p x hdis
    by_cases hp : p = ∅
    · subst hp
      rw [bkAux_p_empty]
      by_cases hx : x = ∅
      · rw [if_pos hx]
        exact List.pairwise_singleton _ _
      · rw [if_neg hx]
        exact List.Pairwise.nil
    · have hne : p.Nonempty := Finset.nonempty_iff_ne_empty.mpr hp
      rw [bkAux_step g f r p x hne]
      set v := p.min' hne with hv
      have hvp : v ∈ p := p.min'_mem hne
      have hvr : v ∉ r := Finset.disjoint_right.mp hdis hvp
      rw [List.pairwise_append]
      refine ⟨ih _ _ _ ?_, ih _ _ _ ?_, ?_⟩
      · rw [Finset.disjoint_insert_left]
        refine ⟨fun h => ?_, ?_⟩
        · exact absurd (Finset.mem_of_mem_inter_left h)
            (Finset.not_mem_erase v p)
        · exact Finset.disjoint_of_subset_right
            (fun a ha => Finset.mem_of_mem_erase
              (Finset.mem_of_mem_inter_left ha)) hdis
      · exact Finset.disjoint_of_subset_right (Finset.erase_subset v p) hdis
      · intro c1 h1 c2 h2
        have hv1 : v ∈ c1 :=
          (bkAux_mem_subset g f _ _ _ c1 h1).1 (Finset.mem_insert_self v r)
        have hv2 : v ∉ c2 := by
          intro hv2
          rcases Finset.mem_union.mp
            ((bkAux_mem_subset g f _ _ _ c2 h2).2 hv2) with h | h
          · exact hvr h
          · exact Finset.not_mem_erase v p h
        intro heq
        exact hv2 (heq ▸ hv1)

/-- Isolated-candidate lemma: along the outer loop (`R = ∅`), a candidate
`v` whose clique-neighbor set is contained in `{v}` is eventually drawn
from `P` and emits exactly the singleton `{v}`. -/
theorem bkAux_singleton_mem (g : Graph) (v : Nat)
    (hnv : cliqueNeighbors g v ⊆ {v}) :
    ∀ (fuel : Nat) (p x : Finset Nat), p.card ≤ fuel → v ∈ p → v ∉ x →
      ({v} : Finset Nat) ∈ bronKerboschAux g fuel ∅ p x := by
  intro fuel
  induction fuel with
  | zero =>
    intro p x hf hvp _
    have : 0 < p.card := Finset.card_pos.mpr ⟨v, hvp⟩
    omega
  | succ f ih =>
    intro p x hf hvp hvx
    have hne : p.Nonempty := ⟨v, hvp⟩
    rw [bkAux_step g f ∅ p x hne]
    set m := p.min' hne with hm
    by_cases hmv : m = v
    · apply List.mem_append_left
      have hp' : (p.erase m) ∩ cliqueNeighbors g m = ∅ := by
        apply Finset.eq_empty_iff_forall_not_mem.mpr
        intro a ha
        have ham : a = m := hmv ▸ Finset.mem_singleton.mp
          (hnv (hmv ▸ Finset.mem_of_mem_inter_right ha))
        have hae : a ∈ p.erase m := Finset.mem_of_mem_inter_left ha
        rw [ham] at hae
        exact Finset.not_mem_erase m p hae
      have hx' : x ∩ cliqueNeighbors g m = ∅ := by
        apply Finset.eq_empty_iff_forall_not_mem.mpr
        intro a ha
        have ham : a = v := Finset.mem_singleton.mp
          (hnv (hmv ▸ Finset.mem_of_mem_inter_right ha))
        exact hvx (ham ▸ Finset.mem_of_mem_inter_left ha)
      rw [hp', hx', bkAux_p_empty, if_pos rfl]
      simp [hmv]
    · apply List.mem_append_right
      have hcard : (p.erase m).card = p.card - 1 :=
        Finset.card_erase_of_mem (p.min'_mem hne)
      have hpos : 0 < p.card := Finset.card_pos.mpr hne
      refine ih _ _ (by omega) ?_ ?_
      · exact Finset.mem_erase.mpr ⟨fun h => hmv h.symm, hvp⟩
      · intro h
        rcases Finset.mem_insert.mp h with h | h
        · exact hmv h.symm
        · exact hvx h

/-! ### The filtered graph view (`src/src/visit/filter.rs`) -/

/-- The capability interface a graph presents to generic algorithms: its
finite node-identifier sequence and its neighbor sequences.  The filtered
adaptor re-exposes exactly this interface, which is what allows nesting. -/
structure GraphView where
  node_identifiers : List Nat
  neighbors : Nat → List Nat

/-- The state of a `FilteredNeighbors` iterator: the `include_source`
flag, the remaining base iterator, and the node predicate. -/
structure FilteredNeighbors where
  include_source : Bool
  iter : List Nat
  f : Nat → Bool

/-- One call of `FilteredNeighbors::next`: when the source node is
excluded the iterator yields nothing; otherwise the base iterator is
advanced past the elements failing the predicate and the first passing
element, if any, is yielded. -/
def FilteredNeighbors.next (s : FilteredNeighbors) :
    Option Nat × FilteredNeighbors :=
  if s.include_source = false then (none, s)
  else
    match s.iter.dropWhile (fun t => !(s.f t)) with
    | [] => (none, ⟨s.include_source, [], s.f⟩)
    | t :: rest => (some t, ⟨s.include_source, rest, s.f⟩)

/-- Drain an iterator by repeated `next` calls, bounded by fuel. -/
def collectAux : Nat → FilteredNeighbors → List Nat
  | 0, _ => []
  | fuel + 1, s =>
    match s.next with
    | (none, _) => []
    | (some t, s') => t :: collectAux fuel s'

/-- The full sequence a `FilteredNeighbors` iterator yields (each `next`
call consumes at least one base element, so `length + 1` calls drain it). -/
def FilteredNeighbors.collect (s : FilteredNeighbors) : List Nat :=
  collectAux (s.iter.length + 1) s

theorem collectAux_succ (k : Nat) (s : FilteredNeighbors) :
    collectAux (k + 1) s =
      match s.next with
      | (none, _) => []
      | (some t, s') => t :: collectAux k s' := by
  rw [collectAux]

theorem collectAux_true_eq_filter (f : Nat → Bool) :
    ∀ (l : List Nat) (fuel : Nat), l.length < fuel →
      collectAux fuel ⟨true, l, f⟩ = l.filter f := by
  intro l
  induction l with
  | nil =>
    intro fuel hf
    match fuel with
    | k + 1 =>
      simp [collectAux, FilteredNeighbors.next]
  | cons a l' ih =>
    intro fuel hf
    match fuel with
    | k + 1 =>
      by_cases hfa : f a = true
      · have hnext : FilteredNeighbors.next ⟨true, a :: l', f⟩ =
            (some a, ⟨true, l', f⟩) := by
          simp [FilteredNeighbors.next, List.dropWhile_cons, hfa]
        simp only [collectAux_succ, hnext]
        have hlen : l'.length < k := by
          simp at hf
          omega
        rw [ih k hlen, List.filter_cons_of_pos hfa]
      · have hfa' : f a = false := Bool.eq_false_iff.mpr hfa
        have hnext : FilteredNeighbors.next ⟨true, a :: l', f⟩ =
            FilteredNeighbors.next ⟨true, l', f⟩ := by
          simp [FilteredNeighbors.next, List.dropWhile_cons, hfa']
        rw [collectAux_succ, hnext, ← collectAux_succ]
        have hlen : l'.length < k + 1 := by
          simp at hf
          omega
        rw [ih (k + 1) hlen, List.filter_cons_of_neg (by simp [hfa'])]

theorem collect_eq (inc : Bool) (l : List Nat) (f : Nat → Bool) :
    FilteredNeighbors.collect ⟨inc, l, f⟩ =
      if inc then l.filter f else [] := by
  match inc with
  | false =>
    rw [FilteredNeighbors.collect]
    simp only [collectAux, FilteredNeighbors.next]
    rfl
  | true =>
    rw [FilteredNeighbors.collect, if_pos rfl]
    exact collectAux_true_eq_filter f l _ (Nat.lt_succ_self _)

/-- `Filtered(G, F)`: the filtered adaptor, re-exposing the capability
interface through `FilteredNeighbors` iterators over the base sequences —
`node_identifiers` always runs with `include_source := true`, while
`neighbors n` runs with `include_source := F(n)` (source suppression). -/
def Filtered (g : GraphView) (f : Nat → Bool) : GraphView where
  node_identifiers := FilteredNeighbors.collect ⟨true, g.node_identifiers, f⟩
  neighbors n := FilteredNeighbors.collect ⟨f n, g.neighbors n, f⟩

theorem Filtered_node_identifiers (g : GraphView) (f : Nat → Bool) :
    (Filtered g f).node_identifiers = g.node_identifiers.filter f := by
  rw [Filtered]
  rw [collect_eq, if_pos rfl]

theorem Filtered_neighbors (g : GraphView) (f : Nat → Bool) (n : Nat) :
    (Filtered g f).neighbors n =
      if f n then (g.neighbors n).filter f else [] := by
  rw [Filtered]
  exact collect_eq (f n) (g.neighbors n) f

/-! ### Properties of the top-level enumeration -/

theorem result_mem_aux {g : Graph} {c : Finset Nat}
    (hc : c ∈ maximalCliquesRef g) :
    c ∈ bronKerboschAux g g.nodes.toFinset.card ∅ g.nodes.toFinset ∅ := by
  rw [maximalCliquesRef, bronKerbosch] at hc
  exact hc

theorem result_subset_nodes {g : Graph} {c : Finset Nat}
    (hc : c ∈ maximalCliquesRef g) : ∀ u ∈ c, u ∈ g.nodes := by
  intro u hu
  have h := (bkAux_mem_subset g _ _ _ _ c (result_mem_aux hc)).2 hu
  rcases Finset.mem_union.mp h with h | h
  · exact absurd h (Finset.not_mem_empty u)
  · exact List.mem_toFinset.mp h

theorem result_adj {g : Graph} {c : Finset Nat}
    (hc : c ∈ maximalCliquesRef g) :
    ∀ u ∈ c, ∀ w ∈ c, u ≠ w → cliqueAdjacent g u w := by
  refine bkAux_adj g _ ∅ g.nodes.toFinset ∅ c ?_ ?_ ?_ (result_mem_aux hc)
  · intro a ha
    exact absurd ha (Finset.not_mem_empty a)
  · intro a ha
    exact absurd ha (Finset.not_mem_empty a)
  · intro b hb
    exact List.mem_toFinset.mp hb

theorem result_maximal {g : Graph} {c : Finset Nat}
    (hc : c ∈ maximalCliquesRef g) :
    ∀ v, v ∈ g.nodes → v ∉ c →
      (∀ u ∈ c, cliqueAdjacent g u v) → False := by
  refine bkAux_maximal g _ ∅ g.nodes.toFinset ∅ c ?_ (result_mem_aux hc)
  intro w hw _ _
  exact Finset.mem_union_left _ (List.mem_toFinset.mpr hw)

theorem result_pairwise_ne (g : Graph) :
    (maximalCliquesRef g).Pairwise (· ≠ ·) := by
  rw [maximalCliquesRef, bronKerbosch]
  exact bkAux_pairwise_ne g _ ∅ g.nodes.toFinset ∅
    (Finset.disjoint_left.mpr (fun a ha => absurd ha (Finset.not_mem_empty a)))

theorem result_not_ssubset {g : Graph} {c d : Finset Nat}
    (hc : c ∈ maximalCliquesRef g) (hd : d ∈ maximalCliquesRef g) :
    ¬ c ⊂ d := by
  intro hss
  obtain ⟨v, hvd, hvc⟩ := Finset.exists_of_ssubset hss
  refine result_maximal hc v (result_subset_nodes hd v hvd) hvc ?_
  intro u hu
  exact result_adj hd u (hss.1 hu) v hvd (fun h => hvc (h ▸ hu))

/-! ### Concrete graphs used by the witnesses -/

/-- Two nodes joined by a mutual (two-directional) edge. -/
def gMutual : Graph := ⟨[0, 1], [(0, 1), (1, 0)]⟩

/-- Two nodes joined by a one-directional edge only. -/
def gOneWay : Graph := ⟨[0, 1], [(0, 1)]⟩

/-- The graph with no nodes. -/
def gEmpty : Graph := ⟨[], []⟩

/-- A small base view for the filter witnesses. -/
def vBase : GraphView := ⟨[0, 1, 2], fun n => if n = 0 then [1, 2] else []⟩

/-- Predicate excluding node `1`. -/
def fNotOne : Nat → Bool := fun n => n != 1

/-- Predicate excluding node `2`. -/
def fNotTwo : Nat → Bool := fun n => n != 2

/-! ### The claims -/

/-- C1: for every graph, every clique returned by the maximal-clique
enumeration is pairwise mutually-adjacent — for any two distinct nodes
`u, v` of a result clique, both `is_adjacent(u, v)` and
`is_adjacent(v, u)` hold under the clique-adjacency rule. -/
theorem C1_result_pairwise_mutually_adjacent (g : Graph) (c : Finset Nat)
    (hc : c ∈ maximalCliquesRef g) :
    ∀ u ∈ c, ∀ v ∈ c, u ≠ v →
      g.isAdjacent g.adjMatrix u v = true ∧
      g.isAdjacent g.adjMatrix v u = true := by
  intro u hu v hv huv
  have h := result_adj hc u hu v hv huv
  simp only [Graph.isAdjacent, decide_eq_true_eq]
  exact h

theorem C1_witness :
    ({0, 1} : Finset Nat) ∈ maximalCliquesRef gMutual ∧
      gMutual.isAdjacent gMutual.adjMatrix 0 1 = true ∧
      gMutual.isAdjacent gMutual.adjMatrix 1 0 = true :=
  ⟨by decide,
    C1_result_pairwise_mutually_adjacent gMutual {0, 1} (by decide)
      0 (by decide) 1 (by decide) (by decide)⟩

/-- C2: for every graph, every clique `C` returned by the maximal-clique
enumeration is inclusion-maximal: for every node `v` not in `C`, either
`v` is not a node of the graph or some member `u` of `C` is not mutually
adjacent with `v`. -/
theorem C2_result_inclusion_maximal (g : Graph) (c : Finset Nat)
    (hc : c ∈ maximalCliquesRef g) :
    ∀ v, v ∉ c → v ∉ g.nodes ∨ ∃ u ∈ c, ¬ cliqueAdjacent g u v := by
  intro v hvc
  by_cases hv : v ∈ g.nodes
  · right
    by_contra h
    push_neg at h
    exact result_maximal hc v hv hvc h
  · left
    exact hv

theorem C2_witness :
    ({0} : Finset Nat) ∈ maximalCliquesRef gOneWay ∧ 1 ∉ ({0} : Finset Nat) ∧
      (1 ∉ gOneWay.nodes ∨ ∃ u ∈ ({0} : Finset Nat),
        ¬ cliqueAdjacent gOneWay u 1) :=
  ⟨by decide, by decide,
    C2_result_inclusion_maximal gOneWay {0} (by decide) 1 (by decide)⟩

/-- C3: for every graph, the returned collection contains no two cliques
that are equal as sets and no clique that is a proper subset of another. -/
theorem C3_result_cliques_incomparable (g : Graph) :
    (maximalCliquesRef g).Pairwise
      (fun c d => c ≠ d ∧ ¬ c ⊂ d ∧ ¬ d ⊂ c) := by
  refine List.Pairwise.imp_of_mem ?_ (result_pairwise_ne g)
  intro c d hc hd hne
  exact ⟨hne, result_not_ssubset hc hd, result_not_ssubset hd hc⟩

/-- C4: the neighbor set `N(v)` used for recursion contains `u` iff `u`
is a structural neighbor of `v` and the reverse adjacency
`is_adjacent(u, v)` holds in the oracle; hence for (existing) nodes of a
directed graph, `u, v` are clique-adjacent exactly when a mutual edge —
both directions — exists. -/
theorem C4_neighbor_set_mutual (g : Graph) (u v : Nat) :
    (u ∈ cliqueNeighbors g v ↔
      u ∈ g.neighbors v ∧ g.isAdjacent g.adjMatrix u v = true) ∧
    (u ∈ g.nodes → v ∈ g.nodes →
      (cliqueAdjacent g u v ↔ (u, v) ∈ g.edges ∧ (v, u) ∈ g.edges)) ∧
    (u ∈ g.nodes → v ∈ g.nodes →
      (u ∈ cliqueNeighbors g v ↔ cliqueAdjacent g u v)) := by
  refine ⟨?_, ?_, ?_⟩
  · simp [cliqueNeighbors, List.mem_filter]
  · intro hu hv
    rw [cliqueAdjacent_iff]
    constructor
    · rintro ⟨⟨-, h1⟩, -, h2⟩
      exact ⟨h1, h2⟩
    · rintro ⟨h1, h2⟩
      exact ⟨⟨hu, h1⟩, hv, h2⟩
  · intro hu hv
    rw [mem_cliqueNeighbors, cliqueAdjacent_iff]
    constructor
    · rintro ⟨h1, -, h3⟩
      exact ⟨⟨hu, h3⟩, hv, h1⟩
    · rintro ⟨⟨-, h1⟩, -, h2⟩
      exact ⟨h2, hu, h1⟩

theorem C4_witness :
    (1 ∈ cliqueNeighbors gMutual 0 ↔
      1 ∈ gMutual.neighbors 0 ∧
      gMutual.isAdjacent gMutual.adjMatrix 1 0 = true) ∧
    (cliqueAdjacent gMutual 1 0 ↔
      (1, 0) ∈ gMutual.edges ∧ (0, 1) ∈ gMutual.edges) :=
  ⟨(C4_neighbor_set_mutual gMutual 1 0).1,
    (C4_neighbor_set_mutual gMutual 1 0).2.1 (by decide) (by decide)⟩

/-- C5: the Bron–Kerbosch recursion follows the specified state machine:
with `P` and `X` both empty, `R` is emitted and the branch ends; with a
candidate `v` drawn from `P`, it recurses on
`(R ∪ {v}, P ∩ N(v), X ∩ N(v))` (where `P` no longer contains the drawn
`v`) and then continues the same level with `v` moved from `P` to `X`;
the initial call is `(∅, all node identifiers, ∅)`. -/
theorem C5_state_machine (g : Graph) (r p x : Finset Nat)
    (h : p.Nonempty) :
    bronKerbosch g r ∅ ∅ = [r] ∧
    bronKerbosch g r p x =
      bronKerbosch g (insert (p.min' h) r)
          ((p.erase (p.min' h)) ∩ cliqueNeighbors g (p.min' h))
          (x ∩ cliqueNeighbors g (p.min' h))
        ++ bronKerbosch g r (p.erase (p.min' h)) (insert (p.min' h) x) ∧
    maximalCliquesRef g = bronKerbosch g ∅ g.nodes.toFinset ∅ := by
  refine ⟨?_, ?_, rfl⟩
  · rw [bronKerbosch, Finset.card_empty, bkAux_p_empty, if_pos rfl]
  · have hpos : 0 < p.card := Finset.card_pos.mpr h
    obtain ⟨k, hk⟩ : ∃ k, p.card = k + 1 := ⟨p.card - 1, by omega⟩
    have hcard : (p.erase (p.min' h)).card = p.card - 1 :=
      Finset.card_erase_of_mem (p.min'_mem h)
    have hinter :
        ((p.erase (p.min' h)) ∩ cliqueNeighbors g (p.min' h)).card ≤
          p.card - 1 :=
      hcard ▸ Finset.card_le_card Finset.inter_subset_left
    rw [bronKerbosch, hk, bkAux_step g k r p x h]
    rw [bronKerbosch, bronKerbosch]
    congr 1
    · exact bkAux_fuel_eq g k _ _ _ _ (by omega) le_rfl
    · exact bkAux_fuel_eq g k _ _ _ _ (by omega) le_rfl

theorem C5_witness :
    bronKerbosch gMutual ∅ {0, 1} ∅ =
      bronKerbosch gMutual {0}
          ((({0, 1} : Finset Nat).erase 0) ∩ cliqueNeighbors gMutual 0)
          (∅ ∩ cliqueNeighbors gMutual 0)
        ++ bronKerbosch gMutual ∅ (({0, 1} : Finset Nat).erase 0) {0} := by
  have h := (C5_state_machine gMutual ∅ {0, 1} ∅ ⟨0, by decide⟩).2.1
  have hmin : ({0, 1} : Finset Nat).min' ⟨0, by decide⟩ = 0 := by decide
  rw [hmin] at h
  simpa using h

/-- Modelled from the spec: `petgraph::algo::maximal_cliques`, the
library-level enumerator called by the empty-graph test, is not under
`src/` (only its test and the reference implementation are); §4.5 and §6
specify that it builds the adjacency oracle and runs the same
Bron–Kerbosch state machine starting from
`(R = ∅, P = all node identifiers, X = ∅)`. -/
def maximalCliques (g : Graph) : List (Finset Nat) :=
  bronKerbosch g ∅ g.nodes.toFinset ∅

/-- C6: running the maximal-clique enumeration on a graph with no nodes
returns exactly one clique, the empty set: the result is `[∅]`, not an
empty collection. -/
theorem C6_empty_graph (g : Graph) (h : g.nodes = []) :
    maximalCliques g = [∅] := by
  rw [maximalCliques, h]
  simp only [List.toFinset_nil]
  rw [bronKerbosch, Finset.card_empty, bkAux_p_empty, if_pos rfl]

theorem C6_witness : gEmpty.nodes = [] ∧ maximalCliques gEmpty = [∅] :=
  ⟨rfl, C6_empty_graph gEmpty rfl⟩

/-- C7: in a graph with at least one node, every node `v` with no mutual
edge to any other node (isolated under the clique-adjacency rule, even
if it has one-directional edges) appears in the result as the singleton
clique `{v}`. -/
theorem C7_isolated_node_singleton (g : Graph) (v : Nat)
    (_hg : g.nodes ≠ []) (hv : v ∈ g.nodes)
    (hiso : ∀ u ∈ g.nodes, u ≠ v → ¬ cliqueAdjacent g u v) :
    ({v} : Finset Nat) ∈ maximalCliquesRef g := by
  rw [maximalCliquesRef, bronKerbosch]
  refine bkAux_singleton_mem g v ?_ _ _ _ le_rfl
    (List.mem_toFinset.mpr hv) (Finset.not_mem_empty v)
  intro u hu
  rw [Finset.mem_singleton]
  by_contra huv
  have h3 := mem_cliqueNeighbors.mp hu
  exact hiso u h3.2.1 huv
    (cliqueAdjacent_iff.mpr ⟨⟨h3.2.1, h3.2.2⟩, hv, h3.1⟩)

theorem C7_witness :
    (gOneWay.nodes ≠ [] ∧ 1 ∈ gOneWay.nodes ∧
      (∀ u ∈ gOneWay.nodes, u ≠ 1 → ¬ cliqueAdjacent gOneWay u 1)) ∧
    ({1} : Finset Nat) ∈ maximalCliquesRef gOneWay :=
  ⟨⟨by decide, by decide, by decide⟩,
    C7_isolated_node_singleton gOneWay 1 (by decide) (by decide) (by decide)⟩

/-- C9: termination of the recursion — drawing the candidate leaves `P`
exactly one element smaller, the candidate set passed to the recursive
call is a strict subset of the former `P` that excludes the drawn `v`,
and any recursion-depth fuel of at least `|P|` (at top level, the node
count) produces the same result, so the recursion terminates within that
depth. -/
theorem C9_termination (g : Graph) (r p x : Finset Nat) (fuel : Nat)
    (hfuel : p.card ≤ fuel) :
    bronKerboschAux g fuel r p x = bronKerbosch g r p x ∧
    ∀ h : p.Nonempty,
      (p.erase (p.min' h)).card + 1 = p.card ∧
      p.min' h ∉ (p.erase (p.min' h)) ∩ cliqueNeighbors g (p.min' h) ∧
      (p.erase (p.min' h)) ∩ cliqueNeighbors g (p.min' h) ⊂ p := by
  refine ⟨by rw [bronKerbosch]; exact bkAux_fuel_eq g fuel p.card r p x hfuel le_rfl, ?_⟩
  intro h
  have hmem := p.min'_mem h
  have hpos := Finset.card_pos.mpr h
  have hcard := Finset.card_erase_of_mem hmem
  refine ⟨by omega, ?_, ?_⟩
  · intro hmm
    exact Finset.not_mem_erase _ _ (Finset.mem_of_mem_inter_left hmm)
  · exact Finset.ssubset_of_subset_of_ssubset Finset.inter_subset_left
      (Finset.erase_ssubset hmem)

theorem C9_witness :
    bronKerboschAux gMutual 5 ∅ {0, 1} ∅ = bronKerbosch gMutual ∅ {0, 1} ∅ ∧
    (({0, 1} : Finset Nat).erase
        (({0, 1} : Finset Nat).min' ⟨0, by decide⟩)).card + 1 =
      ({0, 1} : Finset Nat).card := by
  have h := C9_termination gMutual ∅ {0, 1} ∅ 5 (by decide)
  exact ⟨h.1, (h.2 ⟨0, by decide⟩).1⟩

/-- C8: for every base graph, predicate, and node `v`: the view's
`node_identifiers` yields exactly the base nodes passing the predicate,
preserving base order; for an included `v` the view's `neighbors(v)`
yields exactly the base neighbors passing the predicate in base order;
for an excluded `v`, `neighbors(v)` is the empty sequence. -/
theorem C8_filtered_view (g : GraphView) (f : Nat → Bool) (v : Nat) :
    (Filtered g f).node_identifiers = g.node_identifiers.filter f ∧
    (f v = true → (Filtered g f).neighbors v = (g.neighbors v).filter f) ∧
    (f v = false → (Filtered g f).neighbors v = []) := by
  refine ⟨Filtered_node_identifiers g f, ?_, ?_⟩
  · intro h
    rw [Filtered_neighbors, if_pos h]
  · intro h
    rw [Filtered_neighbors, if_neg (by simp [h])]

theorem C8_witness :
    (Filtered vBase fNotTwo).node_identifiers = [0, 1] ∧
    (Filtered vBase fNotTwo).neighbors 0 = [1] ∧
    (Filtered vBase fNotTwo).neighbors 2 = [] := by
  refine ⟨?_, ?_, ?_⟩
  · rw [(C8_filtered_view vBase fNotTwo 0).1]
    rfl
  · rw [(C8_filtered_view vBase fNotTwo 0).2.1 rfl]
    rfl
  · exact (C8_filtered_view vBase fNotTwo 2).2.2 rfl

/-- C10: filtering composes as predicate conjunction — the nested view
`Filtered(Filtered(g, f1), f2)` yields the node identifiers of `g`
passing both predicates in base order, yields `neighbors(n)` equal to
`g`'s neighbors passing both predicates when both predicates include
`n`, and the empty sequence when either excludes `n`. -/
theorem C10_nested_filter_conjunction (g : GraphView)
    (f1 f2 : Nat → Bool) (n : Nat) :
    (Filtered (Filtered g f1) f2).node_identifiers =
      g.node_identifiers.filter (fun m => f1 m && f2 m) ∧
    (f1 n = true → f2 n = true →
      (Filtered (Filtered g f1) f2).neighbors n =
        (g.neighbors n).filter (fun m => f1 m && f2 m)) ∧
    ((f1 n = false ∨ f2 n = false) →
      (Filtered (Filtered g f1) f2).neighbors n = []) := by
  refine ⟨?_, ?_, ?_⟩
  · rw [Filtered_node_identifiers, Filtered_node_identifiers,
      List.filter_filter]
    simp [Bool.and_comm]
  · intro h1 h2
    rw [Filtered_neighbors, if_pos h2, Filtered_neighbors, if_pos h1,
      List.filter_filter]
    simp [Bool.and_comm]
  · intro h
    rcases h with h | h
    · rw [Filtered_neighbors]
      by_cases h2 : f2 n = true
      · rw [if_pos h2, Filtered_neighbors, if_neg (by simp [h])]
        rfl
      · rw [if_neg h2]
    · rw [Filtered_neighbors, if_neg (by simp [h])]

theorem C10_witness :
    (Filtered (Filtered vBase fNotOne) fNotTwo).node_identifiers = [0] ∧
    (Filtered (Filtered vBase fNotOne) fNotTwo).neighbors 0 = [] ∧
    (Filtered (Filtered vBase fNotOne) fNotTwo).neighbors 1 = [] := by
  refine ⟨?_, ?_, ?_⟩
  · rw [(C10_nested_filter_conjunction vBase fNotOne fNotTwo 0).1]
    rfl
  · rw [(C10_nested_filter_conjunction vBase fNotOne fNotTwo 0).2.1 rfl rfl]
    rfl
  · exact (C10_nested_filter_conjunction vBase fNotOne fNotTwo 1).2.2
      (Or.inl rfl)

end Petgraph
